import Mathlib

/-!
Verification of the segmented concurrent downloader of `src/app.py`
(`ChunkDownloader`): size probe, chunk planning, retried chunk fetch,
completion-order processing of the thread pool's results, progress
accounting, in-order merge with cleanup, and cookie collapsing.

The effectful Python code is shallowly embedded: HTTP responses are
oracles (per chunk, per attempt), the temp-directory / final-file state
is an explicit record threaded through the loops, and the thread pool's
unordered completions are an explicit completion-order list of chunk
indices.
-/

/-- One byte of payload data (`resp.content` is a byte string). -/
abbrev Byte := Nat

/-- `self.chunk_size = 10 * 1024 * 1024` in `ChunkDownloader.__init__`. -/
def CHUNK_SIZE : Nat := 10 * 1024 * 1024

/-- `self.max_workers = 4` in `ChunkDownloader.__init__` (the pool size;
the pool itself is abstracted into the completion-order list). -/
def MAX_WORKERS : Nat := 4

/-- `self.retries = 3` in `ChunkDownloader.__init__`. -/
def RETRIES : Nat := 3

/-- Python `range(start, stop, step)` for a positive `step`: all values
`start, start+step, ...` strictly below `stop`. -/
def pyRange (start stop step : Nat) : List Nat :=
  if _h : 0 < step ∧ start < stop then
    start :: pyRange (start + step) stop step
  else
    []
termination_by stop - start
decreasing_by omega

/-- `chunks[-1] = (chunks[-1][0], total_size - 1)`: rewrite the last
pair's end byte to `total_size - 1`.  On the empty list Python would
raise `IndexError`; that input is unreachable because `download` rejects
`total_size == 0` before planning, so we return `[]` there. -/
def fixLast : List (Nat × Nat) → Nat → List (Nat × Nat)
  | [], _ => []
  | [(s, _)], total => [(s, total - 1)]
  | c :: c' :: rest, total => c :: fixLast (c' :: rest) total

/-- The chunk plan of `ChunkDownloader.download`:
`chunks = [(i, i + self.chunk_size - 1) for i in range(0, total_size, self.chunk_size)]`
followed by the last-chunk fix. -/
def planChunks (totalSize chunkSize : Nat) : List (Nat × Nat) :=
  fixLast ((pyRange 0 totalSize chunkSize).map (fun i => (i, i + chunkSize - 1))) totalSize

/-- The byte width of an inclusive chunk range. -/
def chunkSpan (c : Nat × Nat) : Nat := c.2 - c.1 + 1

theorem pyRange_stop (start stop step : Nat) (h : ¬(0 < step ∧ start < stop)) :
    pyRange start stop step = [] := by
  rw [pyRange, dif_neg h]

theorem pyRange_step (start stop step : Nat) (h : 0 < step ∧ start < stop) :
    pyRange start stop step = start :: pyRange (start + step) stop step := by
  rw [pyRange, dif_pos h]

theorem ceil_div_shift (d step : Nat) (hs : 0 < step) (hd : 0 < d) :
    (d + step - 1) / step = (d - step + step - 1) / step + 1 := by
  rcases le_or_lt d step with hle | hgt
  · have h1 : d - step = 0 := by omega
    have h2 : (0 + step - 1) / step = 0 := Nat.div_eq_of_lt (by omega)
    have h4 : d + step - 1 = (d - 1) + step := by omega
    rw [h1, h2, h4, Nat.add_div_right _ hs, Nat.div_eq_of_lt (by omega)]
  · have h3 : d + step - 1 = (d - step + step - 1) + step := by omega
    rw [h3, Nat.add_div_right _ hs]

theorem pyRange_closed (step : Nat) (hs : 0 < step) :
    ∀ fuel start stop, stop - start ≤ fuel →
      pyRange start stop step =
        (List.range ((stop - start + step - 1) / step)).map (fun k => start + k * step) := by
  intro fuel
  induction fuel with
  | zero =>
    intro start stop h
    rw [pyRange_stop start stop step (by omega)]
    have h0 : stop - start = 0 := by omega
    rw [h0]
    have h1 : (0 + step - 1) / step = 0 := Nat.div_eq_of_lt (by omega)
    rw [h1]
    rfl
  | succ m ih =>
    intro start stop h
    by_cases hlt : start < stop
    · rw [pyRange_step start stop step ⟨hs, hlt⟩]
      rw [ih (start + step) stop (by omega)]
      have hceil : (stop - start + step - 1) / step
          = (stop - (start + step) + step - 1) / step + 1 := by
        have := ceil_div_shift (stop - start) step hs (by omega)
        have harith : stop - (start + step) = stop - start - step := by omega
        rw [harith]
        exact this
      rw [hceil, List.range_succ_eq_map, List.map_cons, List.map_map]
      congr 1
      · omega
      · apply List.map_congr_left
        intro k _
        simp only [Function.comp_apply, Nat.succ_eq_add_one]
        ring
    · rw [pyRange_stop start stop step (by omega)]
      have h0 : stop - start = 0 := by omega
      rw [h0]
      have h1 : (0 + step - 1) / step = 0 := Nat.div_eq_of_lt (by omega)
      rw [h1]
      rfl

theorem fixLast_append (l : List (Nat × Nat)) (s e t : Nat) :
    fixLast (l ++ [(s, e)]) t = l ++ [(s, t - 1)] := by
  induction l with
  | nil => rfl
  | cons c l ih =>
    cases l with
    | nil => rfl
    | cons c' l' =>
      show c :: fixLast ((c' :: l') ++ [(s, e)]) t = c :: ((c' :: l') ++ [(s, t - 1)])
      rw [ih]

/-- Number of chunks produced by the plan: `ceil(total / chunkSize)`. -/
def numChunks (totalSize chunkSize : Nat) : Nat :=
  (totalSize + chunkSize - 1) / chunkSize

theorem numChunks_eq (total cs : Nat) (ht : 0 < total) (hc : 0 < cs) :
    numChunks total cs = (total - 1) / cs + 1 := by
  unfold numChunks
  have h : total + cs - 1 = (total - 1) + cs := by omega
  rw [h, Nat.add_div_right _ hc]

theorem numChunks_pos (total cs : Nat) (ht : 0 < total) (hc : 0 < cs) :
    0 < numChunks total cs := by
  rw [numChunks_eq total cs ht hc]
  exact Nat.succ_pos _

theorem last_start_le (total cs : Nat) (ht : 0 < total) (hc : 0 < cs) :
    (numChunks total cs - 1) * cs ≤ total - 1 := by
  rw [numChunks_eq total cs ht hc]
  simpa using Nat.div_mul_le_self (total - 1) cs

theorem lt_numChunks_mul (total cs : Nat) (ht : 0 < total) (hc : 0 < cs) :
    total - 1 < numChunks total cs * cs := by
  rw [numChunks_eq total cs ht hc]
  have h1 : (total - 1) % cs < cs := Nat.mod_lt _ hc
  have h4 := Nat.div_add_mod (total - 1) cs
  calc total - 1 = cs * ((total - 1) / cs) + (total - 1) % cs := h4.symm
    _ < cs * ((total - 1) / cs) + cs := Nat.add_lt_add_left h1 _
    _ = ((total - 1) / cs + 1) * cs := by ring

/-- Closed form of the chunk plan: `numChunks` pairs, the `k`-th starting
at `k * cs`, the last ending at `total - 1`, all others nominal. -/
theorem planChunks_closed (total cs : Nat) (ht : 0 < total) (hc : 0 < cs) :
    planChunks total cs =
      (List.range (numChunks total cs)).map
        (fun k => (k * cs,
          if k + 1 = numChunks total cs then total - 1 else k * cs + cs - 1)) := by
  obtain ⟨m, hm⟩ : ∃ m, numChunks total cs = m + 1 :=
    ⟨numChunks total cs - 1, by have := numChunks_pos total cs ht hc; omega⟩
  have hrange := pyRange_closed cs hc total 0 total (by omega)
  simp only [Nat.sub_zero, Nat.zero_add] at hrange
  have hn : (total + cs - 1) / cs = numChunks total cs := rfl
  rw [hn, hm] at hrange
  unfold planChunks
  rw [hrange, List.map_map, hm]
  have hg : ((fun i => (i, i + cs - 1)) ∘ fun k => k * cs)
      = fun k => (k * cs, k * cs + cs - 1) := by
    funext k; simp
  rw [hg, List.range_succ, List.map_append, List.map_append,
      List.map_singleton, List.map_singleton, fixLast_append]
  congr 1
  · apply List.map_congr_left
    intro k hk
    rw [List.mem_range] at hk
    have hne : ¬ (k + 1 = m + 1) := by omega
    rw [if_neg hne]
  · rw [if_pos rfl]

theorem planChunks_getElem (total cs : Nat) (ht : 0 < total) (hc : 0 < cs) (k : Nat) :
    (planChunks total cs)[k]? =
      if k < numChunks total cs then
        some (k * cs, if k + 1 = numChunks total cs then total - 1 else k * cs + cs - 1)
      else none := by
  rw [planChunks_closed total cs ht hc]
  by_cases hk : k < numChunks total cs
  · rw [if_pos hk, List.getElem?_map, List.getElem?_range hk, Option.map_some']
  · rw [if_neg hk, List.getElem?_eq_none]
    rw [List.length_map, List.length_range]
    omega

theorem planChunks_length (total cs : Nat) (ht : 0 < total) (hc : 0 < cs) :
    (planChunks total cs).length = numChunks total cs := by
  rw [planChunks_closed total cs ht hc, List.length_map, List.length_range]

theorem sum_map_const_range (m c : Nat) : ((List.range m).map (fun _ => c)).sum = m * c := by
  induction m with
  | zero => simp
  | succ j ih =>
    rw [List.range_succ, List.map_append, List.sum_append, ih,
        List.map_singleton, List.sum_singleton, Nat.succ_mul]

/-- The inclusive chunk spans of the plan sum to the total size. -/
theorem planChunks_spanSum (total cs : Nat) (ht : 0 < total) (hc : 0 < cs) :
    ((planChunks total cs).map chunkSpan).sum = total := by
  obtain ⟨m, hm⟩ : ∃ m, numChunks total cs = m + 1 :=
    ⟨numChunks total cs - 1, by have := numChunks_pos total cs ht hc; omega⟩
  have hlast := last_start_le total cs ht hc
  rw [hm] at hlast
  simp only [Nat.add_sub_cancel] at hlast
  rw [planChunks_closed total cs ht hc, hm, List.map_map, List.range_succ,
      List.map_append, List.sum_append, List.map_singleton, List.sum_singleton]
  have h1 : (List.range m).map
      ((chunkSpan ∘ fun k => (k * cs, if k + 1 = m + 1 then total - 1 else k * cs + cs - 1)))
      = (List.range m).map (fun _ => cs) := by
    apply List.map_congr_left
    intro k hk
    rw [List.mem_range] at hk
    have hne : ¬ (k + 1 = m + 1) := by omega
    simp only [Function.comp_apply, chunkSpan, if_neg hne]
    omega
  rw [h1, sum_map_const_range]
  simp only [Function.comp_apply, chunkSpan, if_true]
  omega

/-- C2: for `total_length > 0` and `chunk_size > 0` the plan has exactly
`ceil(total/chunk_size)` specs; every non-last spec spans `chunk_size`
bytes starting at `k*chunk_size`, the last ends at `total-1`; specs are
nonempty, in range, contiguous, non-overlapping, and cover `[0, total)`;
and `total ≤ chunk_size` yields exactly one spec covering everything. -/
theorem chunk_plan_correct (total cs : Nat) (ht : 0 < total) (hc : 0 < cs) :
    (planChunks total cs).length = (total + cs - 1) / cs
    ∧ (∀ k, k + 1 < (total + cs - 1) / cs →
        (planChunks total cs)[k]? = some (k * cs, k * cs + cs - 1))
    ∧ (planChunks total cs)[(total + cs - 1) / cs - 1]? =
        some (((total + cs - 1) / cs - 1) * cs, total - 1)
    ∧ (∀ k s e : Nat, (planChunks total cs)[k]? = some (s, e) → s ≤ e ∧ e < total)
    ∧ (∀ k s e s' e' : Nat, (planChunks total cs)[k]? = some (s, e) →
        (planChunks total cs)[k + 1]? = some (s', e') → s' = e + 1)
    ∧ (∀ k k' : Nat, ∀ s e s' e' : Nat, k < k' → (planChunks total cs)[k]? = some (s, e) →
        (planChunks total cs)[k']? = some (s', e') → e < s')
    ∧ (∀ p, p < total → ∃ k : Nat, ∃ s e : Nat,
        (planChunks total cs)[k]? = some (s, e) ∧ s ≤ p ∧ p ≤ e)
    ∧ (total ≤ cs → planChunks total cs = [(0, total - 1)]) := by
  have hn : numChunks total cs = (total + cs - 1) / cs := rfl
  have hpos := numChunks_pos total cs ht hc
  have hlast := last_start_le total cs ht hc
  have hlt := lt_numChunks_mul total cs ht hc
  have hget := planChunks_getElem total cs ht hc
  refine ⟨?_, ?_, ?_, ?_, ?_, ?_, ?_, ?_⟩
  · rw [planChunks_length total cs ht hc, hn]
  · intro k hk
    rw [← hn] at hk
    rw [hget k, if_pos (by omega), if_neg (by omega)]
  · rw [← hn, hget (numChunks total cs - 1), if_pos (by omega), if_pos (by omega)]
  · intro k s e hk
    rw [hget k] at hk
    by_cases h1 : k < numChunks total cs
    · rw [if_pos h1] at hk
      simp only [Option.some.injEq, Prod.mk.injEq] at hk
      obtain ⟨hs, he⟩ := hk
      subst hs
      by_cases h2 : k + 1 = numChunks total cs
      · rw [if_pos h2] at he
        subst he
        have hkm : k = numChunks total cs - 1 := by omega
        subst hkm
        constructor
        · omega
        · omega
      · rw [if_neg h2] at he
        subst he
        constructor
        · omega
        · have hk1 : k + 1 ≤ numChunks total cs - 1 := by omega
          have h3 : (k + 1) * cs ≤ (numChunks total cs - 1) * cs :=
            Nat.mul_le_mul_right cs hk1
          have h4 : (k + 1) * cs = k * cs + cs := Nat.succ_mul k cs
          omega
    · rw [if_neg h1] at hk
      exact absurd hk (by simp)
  · intro k s e s' e' hk hk1
    rw [hget k] at hk
    rw [hget (k + 1)] at hk1
    by_cases h1 : k + 1 < numChunks total cs
    · rw [if_pos (by omega), if_neg (by omega)] at hk
      rw [if_pos h1] at hk1
      simp only [Option.some.injEq, Prod.mk.injEq] at hk hk1
      obtain ⟨hs, he⟩ := hk
      obtain ⟨hs', he'⟩ := hk1
      subst hs he hs'
      have h4 : (k + 1) * cs = k * cs + cs := Nat.succ_mul k cs
      omega
    · rw [if_neg h1] at hk1
      exact absurd hk1 (by simp)
  · intro k k' s e s' e' hkk hk hk'
    rw [hget k] at hk
    rw [hget k'] at hk'
    by_cases h1 : k' < numChunks total cs
    · have h0 : k < numChunks total cs := by omega
      rw [if_pos h0, if_neg (by omega)] at hk
      rw [if_pos h1] at hk'
      simp only [Option.some.injEq, Prod.mk.injEq] at hk hk'
      obtain ⟨hs, he⟩ := hk
      obtain ⟨hs', he'⟩ := hk'
      subst he hs'
      have h4 : (k + 1) * cs = k * cs + cs := Nat.succ_mul k cs
      have h5 : (k + 1) * cs ≤ k' * cs := Nat.mul_le_mul_right cs (by omega)
      omega
    · rw [if_neg h1] at hk'
      exact absurd hk' (by simp)
  · intro p hp
    have hkb : p / cs < numChunks total cs := by
      have h6 : p / cs ≤ (total - 1) / cs := Nat.div_le_div_right (by omega)
      rw [numChunks_eq total cs ht hc]
      omega
    refine ⟨p / cs, p / cs * cs,
      if p / cs + 1 = numChunks total cs then total - 1 else p / cs * cs + cs - 1,
      ?_, ?_, ?_⟩
    · rw [hget (p / cs), if_pos hkb]
    · exact Nat.div_mul_le_self p cs
    · have h7 := Nat.div_add_mod p cs
      have h8 : p % cs < cs := Nat.mod_lt _ hc
      by_cases h9 : p / cs + 1 = numChunks total cs
      · rw [if_pos h9]; omega
      · rw [if_neg h9]
        have h10 : cs * (p / cs) = p / cs * cs := Nat.mul_comm _ _
        omega
  · intro hle
    have h1 : numChunks total cs = 1 := by
      rw [numChunks_eq total cs ht hc, Nat.div_eq_of_lt (by omega)]
    rw [planChunks_closed total cs ht hc, h1]
    have h2 : List.range 1 = [0] := by decide
    rw [h2]
    simp

/-- An HTTP range-request attempt as observed by `download_chunk`: either
a response with a status code and a body (`resp.content`), or a raised
transport exception (timeout, connection reset, ...). -/
inductive HttpAttempt where
  | response (status : Nat) (content : List Byte)
  | transportError
deriving DecidableEq

/-- The payload one attempt of `download_chunk` accepts: a response with
`resp.status_code in (200, 206)` yields its content; any other status
raises (and is caught by the retry handler), as does a transport error. -/
def attemptOutcome : HttpAttempt → Option (List Byte)
  | .response status content =>
      if status = 200 ∨ status = 206 then some content else none
  | .transportError => none

/-- `ChunkDownloader.download_chunk`: the oracle maps the attempt number
to the observed HTTP outcome for this chunk's byte range.  On a 200/206
response return `(start, resp.content)`; on any failure retry while
`retry < retries` with `retry + 1`, else raise the terminal error
carrying the byte range `bytes=start-end`. -/
def download_chunk (oracle : Nat → HttpAttempt) (retries s e retry : Nat) :
    Except (Nat × Nat) (Nat × List Byte) :=
  match attemptOutcome (oracle retry) with
  | some content => .ok (s, content)
  | none =>
    if h : retry < retries then download_chunk oracle retries s e (retry + 1)
    else .error (s, e)
termination_by retries - retry
decreasing_by omega

theorem download_chunk_first (oracle : Nat → HttpAttempt) (retries s e r : Nat)
    (c : List Byte) (h : attemptOutcome (oracle r) = some c) :
    download_chunk oracle retries s e r = .ok (s, c) := by
  rw [download_chunk]
  simp only [h]

theorem download_chunk_exhaust (oracle : Nat → HttpAttempt) (retries s e : Nat) :
    ∀ n r, r ≤ retries → retries - r < n →
      (∀ k, r ≤ k → k ≤ retries → attemptOutcome (oracle k) = none) →
      download_chunk oracle retries s e r = .error (s, e) := by
  intro n
  induction n with
  | zero => intro r h1 h2 h3; omega
  | succ m ih =>
    intro r h1 h2 h3
    rw [download_chunk]
    simp only [h3 r (le_refl r) h1]
    by_cases h4 : r < retries
    · rw [dif_pos h4]
      exact ih (r + 1) (by omega) (by omega) (fun k hk1 hk2 => h3 k (by omega) hk2)
    · rw [dif_neg h4]

theorem download_chunk_success (oracle : Nat → HttpAttempt) (retries s e : Nat) :
    ∀ n r k c, r ≤ k → k ≤ retries → retries - r < n →
      (∀ j, r ≤ j → j < k → attemptOutcome (oracle j) = none) →
      attemptOutcome (oracle k) = some c →
      download_chunk oracle retries s e r = .ok (s, c) := by
  intro n
  induction n with
  | zero => intro r k c h1 h2 h3 h4 h5; omega
  | succ m ih =>
    intro r k c h1 h2 h3 h4 h5
    rw [download_chunk]
    by_cases h6 : r = k
    · subst h6
      simp only [h5]
    · have h7 : attemptOutcome (oracle r) = none := h4 r (le_refl r) (by omega)
      simp only [h7]
      have h8 : r < retries := by omega
      rw [dif_pos h8]
      exact ih (r + 1) k c (by omega) h2 (by omega) (fun j hj1 hj2 => h4 j (by omega) hj2) h5

theorem download_chunk_congr (oracle oracle' : Nat → HttpAttempt) (retries s e : Nat) :
    ∀ n r, r ≤ retries → retries - r < n →
      (∀ k, k ≤ retries → oracle' k = oracle k) →
      download_chunk oracle' retries s e r = download_chunk oracle retries s e r := by
  intro n
  induction n with
  | zero => intro r h1 h2 h3; omega
  | succ m ih =>
    intro r h1 h2 h3
    conv_lhs => rw [download_chunk]
    conv_rhs => rw [download_chunk]
    rw [h3 r h1]
    cases houtcome : attemptOutcome (oracle r) with
    | some c => simp only [houtcome]
    | none =>
      simp only [houtcome]
      by_cases h4 : r < retries
      · rw [dif_pos h4, dif_pos h4]
        exact ih (r + 1) (by omega) (by omega) h3
      · rw [dif_neg h4, dif_neg h4]

/-- C3: starting from `retry = 0`, a chunk fetch (a) returns the terminal
error carrying the byte range when all `1 + retries` attempts fail,
(b) returns `(start, payload)` when the first succeeding attempt is any
`k ≤ retries` — in particular `k = retries`, a success on the final
allowed attempt, is accepted; (c) never looks beyond attempt `retries`
(the result only depends on attempts `0..retries`); and (d) any status
other than 200/206 counts as a retryable failure. -/
theorem chunk_fetch_retry_correct (oracle oracle' : Nat → HttpAttempt) (retries s e : Nat) :
    ((∀ k, k ≤ retries → attemptOutcome (oracle k) = none) →
      download_chunk oracle retries s e 0 = .error (s, e))
    ∧ (∀ k c, k ≤ retries → (∀ j, j < k → attemptOutcome (oracle j) = none) →
        attemptOutcome (oracle k) = some c →
        download_chunk oracle retries s e 0 = .ok (s, c))
    ∧ ((∀ k, k ≤ retries → oracle' k = oracle k) →
        download_chunk oracle' retries s e 0 = download_chunk oracle retries s e 0)
    ∧ (∀ status content, ¬(status = 200 ∨ status = 206) →
        attemptOutcome (.response status content) = none) := by
  refine ⟨?_, ?_, ?_, ?_⟩
  · intro hall
    exact download_chunk_exhaust oracle retries s e (retries + 1) 0 (by omega) (by omega)
      (fun k _ hk2 => hall k hk2)
  · intro k c hk hfail hsucc
    exact download_chunk_success oracle retries s e (retries + 1) 0 k c (by omega) hk
      (by omega) (fun j _ hj2 => hfail j hj2) hsucc
  · intro hagree
    exact download_chunk_congr oracle oracle' retries s e (retries + 1) 0 (by omega)
      (by omega) hagree
  · intro status content hstatus
    show (if status = 200 ∨ status = 206 then some content else none) = none
    rw [if_neg hstatus]

/-- The retry recursion re-expressed as an explicit bounded loop over the
attempt counter `0..retries`: the first succeeding attempt's payload
wins, and exhausting the list yields the terminal error. -/
def download_chunk_iter (oracle : Nat → HttpAttempt) (retries s e : Nat) :
    Except (Nat × Nat) (Nat × List Byte) :=
  match (List.range (retries + 1)).findSome? (fun k => attemptOutcome (oracle k)) with
  | some content => .ok (s, content)
  | none => .error (s, e)

theorem download_chunk_iter_from (oracle : Nat → HttpAttempt) (retries s e : Nat) :
    ∀ n r, r ≤ retries → retries + 1 - r = n →
      download_chunk oracle retries s e r =
        match (List.range' r n).findSome? (fun k => attemptOutcome (oracle k)) with
        | some content => .ok (s, content)
        | none => .error (s, e) := by
  intro n
  induction n with
  | zero => intro r h1 h2; omega
  | succ m ih =>
    intro r h1 h2
    rw [download_chunk, List.range'_succ]
    cases houtcome : attemptOutcome (oracle r) with
    | some c =>
      simp only [List.findSome?_cons, houtcome]
    | none =>
      simp only [List.findSome?_cons, houtcome]
      by_cases h4 : r < retries
      · rw [dif_pos h4]
        exact ih (r + 1) (by omega) (by omega)
      · rw [dif_neg h4]
        have hm : m = 0 := by omega
        subst hm
        simp [List.range']

/-- C8: the retry recursion of `download_chunk` terminates and its
observable behavior equals the explicit bounded loop over the attempt
counter: exactly `retries` additional attempts after the first, so the
recursion depth is bounded by the retry budget. -/
theorem retry_recursion_is_bounded_loop (oracle : Nat → HttpAttempt) (retries s e : Nat) :
    download_chunk oracle retries s e 0 = download_chunk_iter oracle retries s e := by
  have h := download_chunk_iter_from oracle retries s e (retries + 1) 0 (by omega) (by omega)
  rw [h, download_chunk_iter, List.range_eq_range']

/-- The `HEAD` response observed by `get_file_size`: a transport error,
or a response with its status code and its `content-length` header
(`none` = header absent, `some none` = present but not parseable as an
integer, `some (some v)` = the integer value `v`). -/
inductive ProbeResponse where
  | response (status : Nat) (contentLength : Option (Option Nat))
  | transportError
deriving DecidableEq

/-- `ChunkDownloader.get_file_size`: on a status-200 response return
`int(resp.headers.get('content-length', 0))` (absent header defaults to
0, an unparsable header raises and is caught, yielding 0); any other
status returns 0; any exception returns 0. -/
def get_file_size : ProbeResponse → Nat
  | .response status contentLength =>
    if status = 200 then
      match contentLength with
      | none => 0
      | some none => 0
      | some (some v) => v
    else 0
  | .transportError => 0

/-- A failed size probe in the sense of the spec: a non-2xx status, an
absent or unusable `content-length` header, or a transport error. -/
def probeFailed : ProbeResponse → Bool
  | .response status contentLength =>
    decide (status < 200) || decide (300 ≤ status) ||
      (contentLength matches none) || (contentLength matches some none)
  | .transportError => true

/-- Filesystem state touched by `ChunkDownloader.download`: the per-index
intermediate chunk files (`chunk_{idx:04d}.dat`) inside the temp
directory, the temp directory itself, and the final output file. -/
structure FS where
  chunks : Nat → Option (List Byte)
  tempDirExists : Bool
  finalFile : Option (List Byte)

/-- The filesystem before a download touches it. -/
def emptyFS : FS := ⟨fun _ => none, false, none⟩

/-- Job-level error taxonomy of `download`. -/
inductive DlError where
  /-- `raise Exception("无法获取有效文件大小")`: the size probe yielded 0. -/
  | sizeUnavailable
  /-- the re-raised terminal chunk failure, carrying the failing range. -/
  | chunkFailed (s e : Nat)
  /-- a chunk file was missing during the merge (`FileNotFoundError`);
  unreachable when every planned chunk was downloaded. -/
  | mergeFailed
deriving DecidableEq

/-- The `as_completed` processing loop of `ChunkDownloader.download`:
`order` is the completion order of the futures (chunk indices into
`plan`).  Each completed future re-raises or returns
`download_chunk`'s result for that chunk's byte range; a success is
written to `chunk_{idx:04d}.dat` and advances the progress bar by
`len(data)`; the first failure shuts the pool down (cancelling the
not-yet-processed completions, which are dropped) and aborts with the
failing byte range. -/
def fetchLoop (fetch : Nat → Nat → HttpAttempt) (plan : List (Nat × Nat)) :
    List Nat → FS → Nat → FS × Nat × Option (Nat × Nat)
  | [], fs, progress => (fs, progress, none)
  | idx :: rest, fs, progress =>
    match plan[idx]? with
    | none => fetchLoop fetch plan rest fs progress
    | some (s, e) =>
      match download_chunk (fetch idx) RETRIES s e 0 with
      | .ok (_, data) =>
          fetchLoop fetch plan rest
            { fs with chunks := fun j => if j = idx then some data else fs.chunks j }
            (progress + data.length)
      | .error err => (fs, progress, some err)

/-- The merge loop of `ChunkDownloader.download`: for each planned index
in ascending order, read `chunk_{idx:04d}.dat`, append it to the final
file, and delete the chunk file; after the loop remove the temp
directory.  A missing chunk file raises (`Bool` result `false`), leaving
the partially written final file and the remaining chunk files. -/
def mergeLoop : FS → List Nat → FS × Bool
  | fs, [] => ({ fs with tempDirExists := false }, true)
  | fs, idx :: rest =>
    match fs.chunks idx with
    | none => (fs, false)
    | some data =>
      mergeLoop
        { fs with
            chunks := fun j => if j = idx then none else fs.chunks j,
            finalFile := some (fs.finalFile.getD [] ++ data) }
        rest

/-- `with open(output_path, "wb") as final_file: ...`: opening the final
file truncates it to empty, then the merge loop runs over
`range(len(chunks))`. -/
def mergeChunks (fs : FS) (n : Nat) : FS × Bool :=
  mergeLoop { fs with finalFile := some [] } (List.range n)

/-- `ChunkDownloader.download`: probe the size (aborting on 0), plan the
chunks with `CHUNK_SIZE`, create the temp directory, process the
futures' results in completion order, and on full success merge the
chunk files in ascending index order into the final file, removing the
intermediates and the temp directory. -/
def download (probe : ProbeResponse) (fetch : Nat → Nat → HttpAttempt)
    (order : List Nat) : Except DlError Unit × FS :=
  let total := get_file_size probe
  if total = 0 then (.error .sizeUnavailable, emptyFS)
  else
    let plan := planChunks total CHUNK_SIZE
    let fs0 : FS := ⟨fun _ => none, true, none⟩
    match fetchLoop fetch plan order fs0 0 with
    | (fs1, _, some (s, e)) => (.error (.chunkFailed s e), fs1)
    | (fs1, _, none) =>
      match mergeChunks fs1 plan.length with
      | (fs2, true) => (.ok (), fs2)
      | (fs2, false) => (.error .mergeFailed, fs2)

/-- Payload length contributed by chunk `idx` when its fetch succeeds
(0 when it fails or the index is outside the plan). -/
def okLength (fetch : Nat → Nat → HttpAttempt) (plan : List (Nat × Nat)) (idx : Nat) : Nat :=
  match plan[idx]? with
  | none => 0
  | some (s, e) =>
    match download_chunk (fetch idx) RETRIES s e 0 with
    | .ok (_, data) => data.length
    | .error _ => 0

theorem fetchLoop_append (fetch : Nat → Nat → HttpAttempt) (plan : List (Nat × Nat)) :
    ∀ pre suf fs p,
      fetchLoop fetch plan (pre ++ suf) fs p =
        match fetchLoop fetch plan pre fs p with
        | (fs', p', none) => fetchLoop fetch plan suf fs' p'
        | (fs', p', some err) => (fs', p', some err) := by
  intro pre
  induction pre with
  | nil => intro suf fs p; rfl
  | cons idx rest ih =>
    intro suf fs p
    rw [List.cons_append]
    cases hidx : plan[idx]? with
    | none =>
      simp only [fetchLoop, hidx]
      exact ih suf fs p
    | some se =>
      obtain ⟨s, e⟩ := se
      cases hdc : download_chunk (fetch idx) RETRIES s e 0 with
      | ok r =>
        obtain ⟨a, data⟩ := r
        simp only [fetchLoop, hidx, hdc]
        exact ih suf _ _
      | error err =>
        simp only [fetchLoop, hidx, hdc]


theorem fetchLoop_nil (fetch : Nat → Nat → HttpAttempt) (plan : List (Nat × Nat))
    (fs : FS) (p : Nat) : fetchLoop fetch plan [] fs p = (fs, p, none) := rfl

theorem fetchLoop_cons_skip (fetch : Nat → Nat → HttpAttempt) (plan : List (Nat × Nat))
    (idx : Nat) (rest : List Nat) (fs : FS) (p : Nat) (hidx : plan[idx]? = none) :
    fetchLoop fetch plan (idx :: rest) fs p = fetchLoop fetch plan rest fs p := by
  simp only [fetchLoop, hidx]

theorem fetchLoop_cons_ok (fetch : Nat → Nat → HttpAttempt) (plan : List (Nat × Nat))
    (idx : Nat) (rest : List Nat) (fs : FS) (p : Nat) (s e a : Nat) (data : List Byte)
    (hidx : plan[idx]? = some (s, e))
    (hdc : download_chunk (fetch idx) RETRIES s e 0 = .ok (a, data)) :
    fetchLoop fetch plan (idx :: rest) fs p =
      fetchLoop fetch plan rest
        { fs with chunks := fun j => if j = idx then some data else fs.chunks j }
        (p + data.length) := by
  simp only [fetchLoop, hidx, hdc]

theorem fetchLoop_cons_err (fetch : Nat → Nat → HttpAttempt) (plan : List (Nat × Nat))
    (idx : Nat) (rest : List Nat) (fs : FS) (p : Nat) (s e : Nat) (err : Nat × Nat)
    (hidx : plan[idx]? = some (s, e))
    (hdc : download_chunk (fetch idx) RETRIES s e 0 = .error err) :
    fetchLoop fetch plan (idx :: rest) fs p = (fs, p, some err) := by
  simp only [fetchLoop, hidx, hdc]

/-- Structural invariants of the completion-processing loop: it never
touches the final file or the temp directory, progress only grows, each
success adds exactly its payload length, chunk files outside the plan
are untouched, existing chunk files survive, and a clean pass leaves a
chunk file for every processed valid index. -/
theorem fetchLoop_invariants (fetch : Nat → Nat → HttpAttempt) (plan : List (Nat × Nat)) :
    ∀ order fs p,
      ((fetchLoop fetch plan order fs p).1).finalFile = fs.finalFile
      ∧ ((fetchLoop fetch plan order fs p).1).tempDirExists = fs.tempDirExists
      ∧ p ≤ (fetchLoop fetch plan order fs p).2.1
      ∧ (fetchLoop fetch plan order fs p).2.1 ≤ p + (order.map (okLength fetch plan)).sum
      ∧ (∀ j, plan.length ≤ j → ((fetchLoop fetch plan order fs p).1).chunks j = fs.chunks j)
      ∧ (∀ j, (fs.chunks j).isSome = true →
          (((fetchLoop fetch plan order fs p).1).chunks j).isSome = true)
      ∧ ((fetchLoop fetch plan order fs p).2.2 = none →
          ∀ idx ∈ order, idx < plan.length →
            (((fetchLoop fetch plan order fs p).1).chunks idx).isSome = true) := by
  intro order
  induction order with
  | nil =>
    intro fs p
    rw [fetchLoop_nil]
    refine ⟨rfl, rfl, le_refl p, by simp, fun j _ => rfl, fun j h => h, ?_⟩
    intro _ idx hidx
    cases hidx
  | cons idx rest ih =>
    intro fs p
    cases hidx : plan[idx]? with
    | none =>
      have hlen : plan.length ≤ idx := by
        by_contra hcon
        push_neg at hcon
        rw [List.getElem?_eq_getElem hcon] at hidx
        cases hidx
      rw [fetchLoop_cons_skip fetch plan idx rest fs p hidx]
      obtain ⟨i1, i2, i3, i4, i5, i6, i7⟩ := ih fs p
      refine ⟨i1, i2, i3, ?_, i5, i6, ?_⟩
      · have h0 : okLength fetch plan idx = 0 := by
          unfold okLength
          rw [hidx]
        rw [List.map_cons, List.sum_cons, h0, Nat.zero_add]
        exact i4
      · intro hnone j hj hjlen
        rcases List.mem_cons.mp hj with hj1 | hj2
        · subst hj1
          omega
        · exact i7 hnone j hj2 hjlen
    | some se =>
      obtain ⟨s, e⟩ := se
      cases hdc : download_chunk (fetch idx) RETRIES s e 0 with
      | ok r =>
        obtain ⟨a, data⟩ := r
        rw [fetchLoop_cons_ok fetch plan idx rest fs p s e a data hidx hdc]
        have hlenidx : idx < plan.length := by
          by_contra hcon
          push_neg at hcon
          rw [List.getElem?_eq_none hcon] at hidx
          cases hidx
        obtain ⟨i1, i2, i3, i4, i5, i6, i7⟩ :=
          ih { fs with chunks := fun j => if j = idx then some data else fs.chunks j }
            (p + data.length)
        refine ⟨i1, i2, by omega, ?_, ?_, ?_, ?_⟩
        · have hok : okLength fetch plan idx = data.length := by
            unfold okLength
            rw [hidx]
            simp only [hdc]
          rw [List.map_cons, List.sum_cons, hok]
          omega
        · intro j hj
          rw [i5 j hj]
          show (if j = idx then some data else fs.chunks j) = fs.chunks j
          rw [if_neg (by omega)]
        · intro j hjs
          apply i6
          show ((if j = idx then some data else fs.chunks j)).isSome = true
          by_cases hji : j = idx
          · rw [if_pos hji]; rfl
          · rw [if_neg hji]; exact hjs
        · intro hnone j hj hjlen
          rcases List.mem_cons.mp hj with hj1 | hj2
          · subst hj1
            apply i6
            show ((if j = j then some data else fs.chunks j)).isSome = true
            rw [if_pos rfl]
            rfl
          · exact i7 hnone j hj2 hjlen
      | error err =>
        rw [fetchLoop_cons_err fetch plan idx rest fs p s e err hidx hdc]
        refine ⟨rfl, rfl, le_refl p, by simp, fun j _ => rfl, fun j h => h, ?_⟩
        intro hnone
        cases hnone

/-- When every planned chunk's fetch succeeds with payload `payload idx`,
the processing loop completes without error and leaves exactly the
payloads of the processed valid indices in the chunk files. -/
theorem fetchLoop_all_success (fetch : Nat → Nat → HttpAttempt) (plan : List (Nat × Nat))
    (payload : Nat → List Byte)
    (hfetch : ∀ idx s e : Nat, plan[idx]? = some (s, e) →
      download_chunk (fetch idx) RETRIES s e 0 = .ok (s, payload idx)) :
    ∀ order fs p,
      (fetchLoop fetch plan order fs p).2.2 = none
      ∧ (∀ j, ((fetchLoop fetch plan order fs p).1).chunks j =
          if j ∈ order ∧ j < plan.length then some (payload j) else fs.chunks j) := by
  intro order
  induction order with
  | nil =>
    intro fs p
    rw [fetchLoop_nil]
    refine ⟨rfl, ?_⟩
    intro j
    have h : ¬ (j ∈ ([] : List Nat) ∧ j < plan.length) := by
      rintro ⟨hj, _⟩
      cases hj
    rw [if_neg h]
  | cons idx rest ih =>
    intro fs p
    cases hidx : plan[idx]? with
    | none =>
      have hlen : plan.length ≤ idx := by
        by_contra hcon
        push_neg at hcon
        rw [List.getElem?_eq_getElem hcon] at hidx
        cases hidx
      rw [fetchLoop_cons_skip fetch plan idx rest fs p hidx]
      obtain ⟨i1, i2⟩ := ih fs p
      refine ⟨i1, ?_⟩
      intro j
      rw [i2 j]
      by_cases hj : j ∈ rest ∧ j < plan.length
      · rw [if_pos hj, if_pos ⟨List.mem_cons_of_mem idx hj.1, hj.2⟩]
      · rw [if_neg hj, if_neg ?_]
        rintro ⟨hj1, hj2⟩
        rcases List.mem_cons.mp hj1 with hj3 | hj4
        · omega
        · exact hj ⟨hj4, hj2⟩
    | some se =>
      obtain ⟨s, e⟩ := se
      have hlenidx : idx < plan.length := by
        by_contra hcon
        push_neg at hcon
        rw [List.getElem?_eq_none hcon] at hidx
        cases hidx
      have hdc := hfetch idx s e hidx
      rw [fetchLoop_cons_ok fetch plan idx rest fs p s e s (payload idx) hidx hdc]
      obtain ⟨i1, i2⟩ :=
        ih { fs with chunks := fun j => if j = idx then some (payload idx) else fs.chunks j }
          (p + (payload idx).length)
      refine ⟨i1, ?_⟩
      intro j
      rw [i2 j]
      by_cases hj : j ∈ rest ∧ j < plan.length
      · rw [if_pos hj, if_pos ⟨List.mem_cons_of_mem idx hj.1, hj.2⟩]
      · rw [if_neg hj]
        show (if j = idx then some (payload idx) else fs.chunks j) = _
        by_cases hji : j = idx
        · subst hji
          rw [if_pos rfl, if_pos ⟨List.mem_cons_self j rest, hlenidx⟩]
        · rw [if_neg hji, if_neg ?_]
          rintro ⟨hj1, hj2⟩
          rcases List.mem_cons.mp hj1 with hj3 | hj4
          · exact hji hj3
          · exact hj ⟨hj4, hj2⟩

/-- A run whose processed chunks all succeed reports no error. -/
theorem fetchLoop_ok_of_ok (fetch : Nat → Nat → HttpAttempt) (plan : List (Nat × Nat)) :
    ∀ order fs p,
      (∀ j ∈ order, ∀ s e : Nat, plan[j]? = some (s, e) →
        ∃ d, download_chunk (fetch j) RETRIES s e 0 = .ok (s, d)) →
      (fetchLoop fetch plan order fs p).2.2 = none := by
  intro order
  induction order with
  | nil =>
    intro fs p _
    rw [fetchLoop_nil]
  | cons idx rest ih =>
    intro fs p hok
    cases hidx : plan[idx]? with
    | none =>
      rw [fetchLoop_cons_skip fetch plan idx rest fs p hidx]
      exact ih fs p (fun j hj => hok j (List.mem_cons_of_mem idx hj))
    | some se =>
      obtain ⟨s, e⟩ := se
      obtain ⟨d, hd⟩ := hok idx (List.mem_cons_self idx rest) s e hidx
      rw [fetchLoop_cons_ok fetch plan idx rest fs p s e s d hidx hd]
      exact ih _ _ (fun j hj => hok j (List.mem_cons_of_mem idx hj))

/-- The merge loop on a duplicate-free index list whose chunk files are
all present: it succeeds, appends the payloads in list order to the
final file, deletes exactly the listed chunk files, and removes the
temp directory. -/
theorem mergeLoop_ok (payload : Nat → List Byte) :
    ∀ (l : List Nat) (fs : FS), l.Nodup → fs.finalFile.isSome = true →
      (∀ i ∈ l, fs.chunks i = some (payload i)) →
      (mergeLoop fs l).2 = true
      ∧ ((mergeLoop fs l).1).finalFile = some (fs.finalFile.getD [] ++ (l.map payload).flatten)
      ∧ (∀ i, ((mergeLoop fs l).1).chunks i = if i ∈ l then none else fs.chunks i)
      ∧ ((mergeLoop fs l).1).tempDirExists = false := by
  intro l
  induction l with
  | nil =>
    intro fs _ hff _
    obtain ⟨v, hv⟩ := Option.isSome_iff_exists.mp hff
    refine ⟨rfl, ?_, ?_, rfl⟩
    · show fs.finalFile = some (fs.finalFile.getD [] ++ ([] : List (List Byte)).flatten)
      rw [hv]
      simp
    · intro i
      have h : ¬ (i ∈ ([] : List Nat)) := by
        intro hi
        cases hi
      rw [if_neg h]
      rfl
  | cons idx rest ih =>
    intro fs hnd hff hpresent
    have hchunk : fs.chunks idx = some (payload idx) :=
      hpresent idx (List.mem_cons_self idx rest)
    have hstep : mergeLoop fs (idx :: rest) =
        mergeLoop
          { fs with
              chunks := fun j => if j = idx then none else fs.chunks j,
              finalFile := some (fs.finalFile.getD [] ++ payload idx) }
          rest := by
      simp only [mergeLoop, hchunk]
    rw [hstep]
    have hnd' : rest.Nodup := (List.nodup_cons.mp hnd).2
    have hidxnmem : idx ∉ rest := (List.nodup_cons.mp hnd).1
    obtain ⟨i1, i2, i3, i4⟩ :=
      ih { fs with
              chunks := fun j => if j = idx then none else fs.chunks j,
              finalFile := some (fs.finalFile.getD [] ++ payload idx) }
        hnd' rfl
        (by
          intro i hi
          show (if i = idx then none else fs.chunks i) = some (payload i)
          rw [if_neg (by rintro rfl; exact hidxnmem hi)]
          exact hpresent i (List.mem_cons_of_mem idx hi))
    refine ⟨i1, ?_, ?_, i4⟩
    · rw [i2]
      show some ((some (fs.finalFile.getD [] ++ payload idx)).getD [] ++ _) = _
      rw [Option.getD_some, List.map_cons, List.flatten_cons, List.append_assoc]
    · intro i
      rw [i3 i]
      by_cases hi : i ∈ rest
      · rw [if_pos hi, if_pos (List.mem_cons_of_mem idx hi)]
      · rw [if_neg hi]
        show (if i = idx then none else fs.chunks i) = _
        by_cases hii : i = idx
        · subst hii
          rw [if_pos rfl, if_pos (List.mem_cons_self i rest)]
        · rw [if_neg hii, if_neg ?_]
          intro hmem
          rcases List.mem_cons.mp hmem with h1 | h2
          · exact hii h1
          · exact hi h2

/-- A successful merge presupposes every listed chunk file was present. -/
theorem mergeLoop_presence :
    ∀ (l : List Nat) (fs : FS), (mergeLoop fs l).2 = true →
      ∀ i ∈ l, (fs.chunks i).isSome = true := by
  intro l
  induction l with
  | nil =>
    intro fs _ i hi
    cases hi
  | cons idx rest ih =>
    intro fs hflag i hi
    cases hchunk : fs.chunks idx with
    | none =>
      have hstep : mergeLoop fs (idx :: rest) = (fs, false) := by
        simp only [mergeLoop, hchunk]
      rw [hstep] at hflag
      cases hflag
    | some data =>
      have hstep : mergeLoop fs (idx :: rest) =
          mergeLoop
            { fs with
                chunks := fun j => if j = idx then none else fs.chunks j,
                finalFile := some (fs.finalFile.getD [] ++ data) }
            rest := by
        simp only [mergeLoop, hchunk]
      rw [hstep] at hflag
      rcases List.mem_cons.mp hi with h1 | h2
      · subst h1
        rw [hchunk]
        rfl
      · have := ih _ hflag i h2
        by_cases hii : i = idx
        · subst hii
          rw [hchunk]
          rfl
        · have hh : ((if i = idx then none else fs.chunks i)).isSome = true := this
          rw [if_neg hii] at hh
          exact hh

theorem download_probe_zero (probe : ProbeResponse) (fetch : Nat → Nat → HttpAttempt)
    (order : List Nat) (h : get_file_size probe = 0) :
    download probe fetch order = (.error .sizeUnavailable, emptyFS) := by
  simp only [download, h, if_pos]

theorem download_probe_pos (probe : ProbeResponse) (fetch : Nat → Nat → HttpAttempt)
    (order : List Nat) (h : ¬ get_file_size probe = 0) :
    download probe fetch order =
      match fetchLoop fetch (planChunks (get_file_size probe) CHUNK_SIZE) order
          ⟨fun _ => none, true, none⟩ 0 with
      | (fs1, _, some (s, e)) => (.error (.chunkFailed s e), fs1)
      | (fs1, _, none) =>
        match mergeChunks fs1 (planChunks (get_file_size probe) CHUNK_SIZE).length with
        | (fs2, true) => (.ok (), fs2)
        | (fs2, false) => (.error .mergeFailed, fs2) := by
  simp only [download, if_neg h]

/-- C6: a failed size probe — non-2xx status, absent or unusable
content-length, or a transport error — makes the job abort immediately
with the size-unavailable error, with no retry at the probe layer (the
single HEAD response decides) and before any chunk fetch: the outcome is
identical for every fetch oracle and completion order, and the
filesystem stays untouched. -/
theorem probe_failure_aborts (probe : ProbeResponse) (h : probeFailed probe = true) :
    ∀ (fetch : Nat → Nat → HttpAttempt) (order : List Nat),
      download probe fetch order = (.error .sizeUnavailable, emptyFS) := by
  intro fetch order
  have h0 : get_file_size probe = 0 := by
    cases probe with
    | transportError => rfl
    | response status cl =>
      by_cases hs : status = 200
      · subst hs
        cases cl with
        | none => rfl
        | some v =>
          cases v with
          | none => rfl
          | some n =>
            simp [probeFailed] at h
      · show (if status = 200 then _ else 0) = 0
        rw [if_neg hs]
  exact download_probe_zero probe fetch order h0


theorem download_fetch_err (probe : ProbeResponse) (fetch : Nat → Nat → HttpAttempt)
    (order : List Nat) (fs1 : FS) (p1 s e : Nat)
    (h : ¬ get_file_size probe = 0)
    (hF : fetchLoop fetch (planChunks (get_file_size probe) CHUNK_SIZE) order
        ⟨fun _ => none, true, none⟩ 0 = (fs1, p1, some (s, e))) :
    download probe fetch order = (.error (.chunkFailed s e), fs1) := by
  rw [download_probe_pos probe fetch order h, hF]

theorem download_fetch_none (probe : ProbeResponse) (fetch : Nat → Nat → HttpAttempt)
    (order : List Nat) (fs1 : FS) (p1 : Nat)
    (h : ¬ get_file_size probe = 0)
    (hF : fetchLoop fetch (planChunks (get_file_size probe) CHUNK_SIZE) order
        ⟨fun _ => none, true, none⟩ 0 = (fs1, p1, none)) :
    download probe fetch order =
      match mergeChunks fs1 (planChunks (get_file_size probe) CHUNK_SIZE).length with
      | (fs2, true) => (.ok (), fs2)
      | (fs2, false) => (.error .mergeFailed, fs2) := by
  rw [download_probe_pos probe fetch order h, hF]

theorem download_merge_flag (probe : ProbeResponse) (fetch : Nat → Nat → HttpAttempt)
    (order : List Nat) (fs1 fs2 : FS) (p1 : Nat) (flag : Bool)
    (h : ¬ get_file_size probe = 0)
    (hF : fetchLoop fetch (planChunks (get_file_size probe) CHUNK_SIZE) order
        ⟨fun _ => none, true, none⟩ 0 = (fs1, p1, none))
    (hM : mergeChunks fs1 (planChunks (get_file_size probe) CHUNK_SIZE).length = (fs2, flag)) :
    download probe fetch order =
      if flag then (.ok (), fs2) else (.error .mergeFailed, fs2) := by
  rw [download_fetch_none probe fetch order fs1 p1 h hF, hM]
  cases flag
  · rfl
  · rfl

/-- C7: when a download job fails — because the size probe failed or a
chunk reached terminal failure — and the completion order covers exactly
the planned futures (as `as_completed` does), the final output file is
never created: the job leaves no file, partial or otherwise, at the
final output path; it is only opened once every planned chunk has been
persisted. -/
theorem no_output_on_failure (probe : ProbeResponse) (fetch : Nat → Nat → HttpAttempt)
    (order : List Nat) (err : DlError)
    (horder : order.Perm (List.range (planChunks (get_file_size probe) CHUNK_SIZE).length))
    (herr : (download probe fetch order).1 = .error err) :
    ((download probe fetch order).2).finalFile = none := by
  by_cases h0 : get_file_size probe = 0
  · rw [download_probe_zero probe fetch order h0]
    rfl
  · rcases hF : fetchLoop fetch (planChunks (get_file_size probe) CHUNK_SIZE) order
        ⟨fun _ => none, true, none⟩ 0 with ⟨fs1, p1, oerr⟩
    obtain ⟨i1, i2, i3, i4, i5, i6, i7⟩ :=
      fetchLoop_invariants fetch (planChunks (get_file_size probe) CHUNK_SIZE) order
        ⟨fun _ => none, true, none⟩ 0
    rw [hF] at i1 i7
    cases oerr with
    | some se =>
      obtain ⟨s, e⟩ := se
      rw [download_fetch_err probe fetch order fs1 p1 s e h0 hF]
      exact i1
    | none =>
      rcases hM : mergeChunks fs1 (planChunks (get_file_size probe) CHUNK_SIZE).length
          with ⟨fs2, flag⟩
      have hMdef : mergeLoop { fs1 with finalFile := some ([] : List Byte) }
          (List.range (planChunks (get_file_size probe) CHUNK_SIZE).length)
          = (fs2, flag) := hM
      obtain ⟨m1, m2, m3, m4⟩ :=
        mergeLoop_ok (fun i => (fs1.chunks i).getD [])
          (List.range (planChunks (get_file_size probe) CHUNK_SIZE).length)
          { fs1 with finalFile := some ([] : List Byte) }
          (List.nodup_range _) rfl
          (by
            intro i hi
            rw [List.mem_range] at hi
            have hsome := i7 rfl i (horder.mem_iff.mpr (List.mem_range.mpr hi)) hi
            obtain ⟨d, hd⟩ := Option.isSome_iff_exists.mp hsome
            show fs1.chunks i = some ((fs1.chunks i).getD [])
            rw [hd]
            rfl)
      rw [hMdef] at m1
      have hflag : flag = true := m1
      subst hflag
      rw [download_merge_flag probe fetch order fs1 fs2 p1 true h0 hF hM] at herr
      simp at herr

/-- C9: a successful download consumes the intermediate chunk storage
completely: every per-chunk intermediate file is deleted, the containing
temp directory is removed, and the final output file is present. -/
theorem success_cleans_intermediates (probe : ProbeResponse) (fetch : Nat → Nat → HttpAttempt)
    (order : List Nat)
    (hok : (download probe fetch order).1 = .ok ()) :
    (∀ i, ((download probe fetch order).2).chunks i = none)
    ∧ ((download probe fetch order).2).tempDirExists = false
    ∧ (((download probe fetch order).2).finalFile).isSome = true := by
  by_cases h0 : get_file_size probe = 0
  · rw [download_probe_zero probe fetch order h0] at hok
    cases hok
  · rcases hF : fetchLoop fetch (planChunks (get_file_size probe) CHUNK_SIZE) order
        ⟨fun _ => none, true, none⟩ 0 with ⟨fs1, p1, oerr⟩
    obtain ⟨i1, i2, i3, i4, i5, i6, i7⟩ :=
      fetchLoop_invariants fetch (planChunks (get_file_size probe) CHUNK_SIZE) order
        ⟨fun _ => none, true, none⟩ 0
    rw [hF] at i5
    cases oerr with
    | some se =>
      obtain ⟨s, e⟩ := se
      rw [download_fetch_err probe fetch order fs1 p1 s e h0 hF] at hok
      cases hok
    | none =>
      rcases hM : mergeChunks fs1 (planChunks (get_file_size probe) CHUNK_SIZE).length
          with ⟨fs2, flag⟩
      cases flag with
      | false =>
        rw [download_merge_flag probe fetch order fs1 fs2 p1 false h0 hF hM] at hok
        simp at hok
      | true =>
        have hMdef : mergeLoop { fs1 with finalFile := some ([] : List Byte) }
            (List.range (planChunks (get_file_size probe) CHUNK_SIZE).length)
            = (fs2, true) := hM
        have hpres := mergeLoop_presence
          (List.range (planChunks (get_file_size probe) CHUNK_SIZE).length)
          { fs1 with finalFile := some ([] : List Byte) }
          (by rw [hMdef])
        obtain ⟨m1, m2, m3, m4⟩ :=
          mergeLoop_ok (fun i => (fs1.chunks i).getD [])
            (List.range (planChunks (get_file_size probe) CHUNK_SIZE).length)
            { fs1 with finalFile := some ([] : List Byte) }
            (List.nodup_range _) rfl
            (by
              intro i hi
              have hsome := hpres i hi
              obtain ⟨d, hd⟩ := Option.isSome_iff_exists.mp hsome
              show fs1.chunks i = some ((fs1.chunks i).getD [])
              rw [hd]
              rfl)
        rw [hMdef] at m2 m3 m4
        rw [download_merge_flag probe fetch order fs1 fs2 p1 true h0 hF hM]
        refine ⟨?_, m4, ?_⟩
        · intro i
          have hi3 := m3 i
          by_cases hi : i ∈ List.range (planChunks (get_file_size probe) CHUNK_SIZE).length
          · rw [if_pos hi] at hi3
            exact hi3
          · rw [if_neg hi] at hi3
            rw [List.mem_range] at hi
            have houtside : fs1.chunks i = none := i5 i (by omega)
            exact hi3.trans houtside
        · have hff : fs2.finalFile
              = some ((List.map (fun i => (fs1.chunks i).getD [])
                (List.range (planChunks (get_file_size probe) CHUNK_SIZE).length)).flatten) := m2
          show (fs2.finalFile).isSome = true
          rw [hff]
          rfl

/-- C1: when the probe succeeds and every planned chunk's fetch succeeds
with payload `payload idx`, any completion order that is a permutation
of the planned indices yields a successful download whose final file is
exactly the concatenation of the payloads in ascending chunk-index
order — the right-hand side does not mention the completion order, so
reassembly is independent of it. -/
theorem reassembly_in_index_order (probe : ProbeResponse) (fetch : Nat → Nat → HttpAttempt)
    (payload : Nat → List Byte) (order : List Nat)
    (ht : ¬ get_file_size probe = 0)
    (hfetch : ∀ idx s e : Nat,
      (planChunks (get_file_size probe) CHUNK_SIZE)[idx]? = some (s, e) →
      download_chunk (fetch idx) RETRIES s e 0 = .ok (s, payload idx))
    (horder : order.Perm
      (List.range (planChunks (get_file_size probe) CHUNK_SIZE).length)) :
    (download probe fetch order).1 = .ok ()
    ∧ ((download probe fetch order).2).finalFile =
        some (((List.range (planChunks (get_file_size probe) CHUNK_SIZE).length).map
          payload).flatten) := by
  rcases hF : fetchLoop fetch (planChunks (get_file_size probe) CHUNK_SIZE) order
      ⟨fun _ => none, true, none⟩ 0 with ⟨fs1, p1, oerr⟩
  obtain ⟨a1, a2⟩ :=
    fetchLoop_all_success fetch (planChunks (get_file_size probe) CHUNK_SIZE) payload hfetch
      order ⟨fun _ => none, true, none⟩ 0
  rw [hF] at a1 a2
  have hoerr : oerr = none := a1
  subst hoerr
  rcases hM : mergeChunks fs1 (planChunks (get_file_size probe) CHUNK_SIZE).length
      with ⟨fs2, flag⟩
  have hMdef : mergeLoop { fs1 with finalFile := some ([] : List Byte) }
      (List.range (planChunks (get_file_size probe) CHUNK_SIZE).length)
      = (fs2, flag) := hM
  obtain ⟨m1, m2, m3, m4⟩ :=
    mergeLoop_ok payload
      (List.range (planChunks (get_file_size probe) CHUNK_SIZE).length)
      { fs1 with finalFile := some ([] : List Byte) }
      (List.nodup_range _) rfl
      (by
        intro i hi
        rw [List.mem_range] at hi
        have h2 := a2 i
        show fs1.chunks i = some (payload i)
        rw [h2, if_pos ⟨horder.mem_iff.mpr (List.mem_range.mpr hi), hi⟩])
  rw [hMdef] at m1 m2
  have hflag : flag = true := m1
  subst hflag
  rw [download_merge_flag probe fetch order fs1 fs2 p1 true ht hF hM]
  exact ⟨rfl, m2⟩

/-- C4: once the first chunk reaches terminal failure (all of its
attempts exhausted) the job fails: the results completed after the
failure is recognized are discarded — the outcome does not depend on
them, modelling the pool shutdown with cancellation — and exactly one
aggregated error naming the failing byte range propagates to the
caller. -/
theorem first_terminal_failure_fails_job (probe : ProbeResponse)
    (fetch : Nat → Nat → HttpAttempt) (pre rest₁ rest₂ : List Nat) (idx s e : Nat)
    (ht : ¬ get_file_size probe = 0)
    (hpre : ∀ j ∈ pre, ∀ s' e' : Nat,
      (planChunks (get_file_size probe) CHUNK_SIZE)[j]? = some (s', e') →
      ∃ d, download_chunk (fetch j) RETRIES s' e' 0 = .ok (s', d))
    (hspec : (planChunks (get_file_size probe) CHUNK_SIZE)[idx]? = some (s, e))
    (hfail : download_chunk (fetch idx) RETRIES s e 0 = .error (s, e)) :
    (download probe fetch (pre ++ idx :: rest₁)).1 = .error (.chunkFailed s e)
    ∧ download probe fetch (pre ++ idx :: rest₁) = download probe fetch (pre ++ idx :: rest₂) := by
  have key : ∀ rest : List Nat,
      fetchLoop fetch (planChunks (get_file_size probe) CHUNK_SIZE) (pre ++ idx :: rest)
        ⟨fun _ => none, true, none⟩ 0 =
      ((fetchLoop fetch (planChunks (get_file_size probe) CHUNK_SIZE) pre
          ⟨fun _ => none, true, none⟩ 0).1,
        (fetchLoop fetch (planChunks (get_file_size probe) CHUNK_SIZE) pre
          ⟨fun _ => none, true, none⟩ 0).2.1, some (s, e)) := by
    intro rest
    rw [fetchLoop_append]
    rcases hP : fetchLoop fetch (planChunks (get_file_size probe) CHUNK_SIZE) pre
        ⟨fun _ => none, true, none⟩ 0 with ⟨fsp, pp, oe⟩
    have hoe : oe = none := by
      have h := fetchLoop_ok_of_ok fetch (planChunks (get_file_size probe) CHUNK_SIZE) pre
        ⟨fun _ => none, true, none⟩ 0 hpre
      rw [hP] at h
      exact h
    subst hoe
    show fetchLoop fetch (planChunks (get_file_size probe) CHUNK_SIZE) (idx :: rest) fsp pp = _
    rw [fetchLoop_cons_err fetch (planChunks (get_file_size probe) CHUNK_SIZE) idx rest
      fsp pp s e (s, e) hspec hfail]
  constructor
  · rw [download_fetch_err probe fetch (pre ++ idx :: rest₁) _ _ s e ht (key rest₁)]
  · rw [download_fetch_err probe fetch (pre ++ idx :: rest₁) _ _ s e ht (key rest₁),
        download_fetch_err probe fetch (pre ++ idx :: rest₂) _ _ s e ht (key rest₂)]

theorem range_map_getD (l : List (Nat × Nat)) :
    (List.range l.length).map (fun k => chunkSpan (l[k]?.getD (0, 0))) = l.map chunkSpan := by
  apply List.ext_getElem
  · rw [List.length_map, List.length_range, List.length_map]
  · intro i h1 h2
    rw [List.length_map, List.length_range] at h1
    rw [List.getElem_map, List.getElem_range, List.getElem_map,
      List.getElem?_eq_getElem h1]
    rfl

theorem sum_le_of_nodup_subset (order : List Nat) (n : Nat) (f : Nat → Nat)
    (hnd : order.Nodup) (hsub : ∀ i ∈ order, i < n) :
    (order.map f).sum ≤ ((List.range n).map f).sum := by
  have hsp : order.Subperm (List.range n) :=
    List.Nodup.subperm hnd (fun i hi => List.mem_range.mpr (hsub i hi))
  obtain ⟨l, hperm, hsl⟩ := hsp
  calc (order.map f).sum = ((l.map f).sum) := (List.Perm.sum_eq (hperm.map f)).symm
    _ ≤ ((List.range n).map f).sum :=
        List.Sublist.sum_le_sum (hsl.map f) (fun a _ => Nat.zero_le a)

/-- C5 (amended): along the result-processing loop the progress counter
(`pbar`) is monotonically non-decreasing — each successful chunk adds
exactly its payload's byte length — and it never exceeds the sum of the
payload lengths of the succeeded chunks; when every accepted payload is
no longer than its chunk's span (a server honoring the requested
ranges), it never exceeds `total_length`.  Without that proviso the
bound by `total_length` fails (see the counterexample): the code trusts
`len(data)` without validating the served range. -/
theorem progress_counter_bounds (fetch : Nat → Nat → HttpAttempt) (total : Nat)
    (order : List Nat) (ht : 0 < total) (hnd : order.Nodup)
    (hmem : ∀ idx ∈ order, idx < (planChunks total CHUNK_SIZE).length)
    (hspan : ∀ idx ∈ order,
      okLength fetch (planChunks total CHUNK_SIZE) idx ≤
        chunkSpan ((planChunks total CHUNK_SIZE)[idx]?.getD (0, 0))) :
    (∀ (fs : FS) (p : Nat) (pre suf : List Nat), order = pre ++ suf →
      (fetchLoop fetch (planChunks total CHUNK_SIZE) pre fs p).2.1 ≤
        (fetchLoop fetch (planChunks total CHUNK_SIZE) order fs p).2.1)
    ∧ (∀ (fs : FS) (p : Nat),
        (fetchLoop fetch (planChunks total CHUNK_SIZE) order fs p).2.1 ≤
          p + (order.map (okLength fetch (planChunks total CHUNK_SIZE))).sum)
    ∧ (∀ fs : FS, (fetchLoop fetch (planChunks total CHUNK_SIZE) order fs 0).2.1 ≤ total) := by
  have hcs : 0 < CHUNK_SIZE := by decide
  refine ⟨?_, ?_, ?_⟩
  · intro fs p pre suf horder
    subst horder
    rw [fetchLoop_append]
    rcases hP : fetchLoop fetch (planChunks total CHUNK_SIZE) pre fs p with ⟨fsp, pp, oe⟩
    cases oe with
    | none =>
      exact (fetchLoop_invariants fetch (planChunks total CHUNK_SIZE) suf fsp pp).2.2.1
    | some err => exact le_refl _
  · intro fs p
    exact (fetchLoop_invariants fetch (planChunks total CHUNK_SIZE) order fs p).2.2.2.1
  · intro fs
    have h1 := (fetchLoop_invariants fetch (planChunks total CHUNK_SIZE) order fs 0).2.2.2.1
    have h2 : (order.map (okLength fetch (planChunks total CHUNK_SIZE))).sum ≤
        (order.map (fun idx =>
          chunkSpan ((planChunks total CHUNK_SIZE)[idx]?.getD (0, 0)))).sum :=
      List.sum_le_sum hspan
    have h3 := sum_le_of_nodup_subset order (planChunks total CHUNK_SIZE).length
      (fun idx => chunkSpan ((planChunks total CHUNK_SIZE)[idx]?.getD (0, 0))) hnd hmem
    have h4 := range_map_getD (planChunks total CHUNK_SIZE)
    have h5 := planChunks_spanSum total CHUNK_SIZE ht hcs
    rw [h4] at h3
    omega

theorem planChunks_total_one : planChunks 1 CHUNK_SIZE = [(0, 0)] := by
  have h := planChunks_closed 1 CHUNK_SIZE (by decide) (by decide)
  rw [h]
  decide

/-- C5, counterexample to the claim as stated: one planned chunk
`(0, 0)` for `total_length = 1`, but the server answers the range
request with a two-byte status-200 body; `download_chunk` accepts it and
the loop adds `len(data) = 2`, so the progress counter ends at 2,
exceeding `total_length = 1`. -/
theorem progress_exceeds_total_length :
    (fetchLoop (fun _ _ => HttpAttempt.response 200 [37, 42]) (planChunks 1 CHUNK_SIZE)
      [0] ⟨fun _ => none, true, none⟩ 0).2.1 = 2 ∧ 1 < 2 := by
  constructor
  · rw [planChunks_total_one]
    have hdc : download_chunk (fun _ => HttpAttempt.response 200 [37, 42]) RETRIES 0 0 0
        = .ok (0, [37, 42]) :=
      download_chunk_first _ _ _ _ _ _ rfl
    rw [fetchLoop_cons_ok (fun _ _ => HttpAttempt.response 200 [37, 42]) [(0, 0)] 0 []
      ⟨fun _ => none, true, none⟩ 0 0 0 0 [37, 42] rfl hdc, fetchLoop_nil]
    rfl
  · omega

/-- `self.cookies` in `ChunkDownloader.__init__`: the dict comprehension
over the cookie records, keyed by cookie name with the cookie value; a
Python dict assignment overwrites, so iterating in order makes a later
pair with the same name replace an earlier one. -/
def buildCookies (cookies : List (String × String)) : String → Option String :=
  cookies.foldl (fun m c => fun name => if name = c.1 then some c.2 else m name)
    (fun _ => none)

/-- C10: the constructor collapses the ordered cookie sequence into a
name-keyed map in which the LAST occurrence of each name wins: the map
consulted by every request of the job holds, for each name, the value of
its last occurrence, and earlier duplicates are silently discarded. -/
theorem cookies_last_occurrence_wins (cookies : List (String × String)) (name : String) :
    buildCookies cookies name =
      ((cookies.filter (fun c => c.1 = name)).getLast?).map Prod.snd := by
  induction cookies using List.reverseRecOn with
  | nil => rfl
  | append_singleton l c ih =>
    unfold buildCookies
    rw [List.foldl_append]
    show (if name = c.1 then some c.2 else buildCookies l name) = _
    rw [List.filter_append]
    by_cases hname : name = c.1
    · rw [if_pos hname]
      have hfc : List.filter (fun c => decide (c.1 = name)) [c] = [c] := by
        have : (decide (c.1 = name)) = true := by
          rw [decide_eq_true_eq]
          exact hname.symm
        simp [List.filter, this]
      rw [hfc, List.getLast?_append_of_ne_nil _ (by simp)]
      rfl
    · rw [if_neg hname]
      have hfc : List.filter (fun c => decide (c.1 = name)) [c] = [] := by
        have : (decide (c.1 = name)) = false := by
          rw [decide_eq_false_iff_not]
          intro hcc
          exact hname hcc.symm
        simp [List.filter, this]
      rw [hfc, List.append_nil]
      exact ih

theorem planChunks_total_five : planChunks 5 CHUNK_SIZE = [(0, 4)] := by
  have h := planChunks_closed 5 CHUNK_SIZE (by decide) (by decide)
  rw [h]
  decide

theorem chunk_plan_correct_witness :
    (planChunks 5 2).length = 3
    ∧ (planChunks 5 2)[0]? = some (0, 1)
    ∧ (planChunks 5 2)[2]? = some (4, 4) := by
  have h := chunk_plan_correct 5 2 (by decide) (by decide)
  refine ⟨?_, ?_, ?_⟩
  · rw [h.1]
  · have h0 := h.2.1 0 (by norm_num)
    norm_num at h0
    exact h0
  · have h2 := h.2.2.1
    norm_num at h2
    exact h2

theorem chunk_fetch_retry_correct_witness :
    download_chunk (fun k => if k < 3 then HttpAttempt.transportError
      else HttpAttempt.response 206 [9]) 3 10 20 0 = .ok (10, [9]) :=
  (chunk_fetch_retry_correct
    (fun k => if k < 3 then HttpAttempt.transportError else HttpAttempt.response 206 [9])
    (fun _ => HttpAttempt.transportError) 3 10 20).2.1
    3 [9] (by decide) (by decide) (by decide)

theorem probe_failure_aborts_witness :
    download (ProbeResponse.response 403 (some (some 100)))
      (fun _ _ => HttpAttempt.response 206 [1]) [0]
      = (.error .sizeUnavailable, emptyFS) :=
  probe_failure_aborts (ProbeResponse.response 403 (some (some 100))) (by decide)
    (fun _ _ => HttpAttempt.response 206 [1]) [0]

theorem reassembly_in_index_order_witness :
    (download (ProbeResponse.response 200 (some (some 5)))
      (fun _ _ => HttpAttempt.response 206 [7, 7, 7, 7, 7]) [0]).1 = .ok ()
    ∧ ((download (ProbeResponse.response 200 (some (some 5)))
        (fun _ _ => HttpAttempt.response 206 [7, 7, 7, 7, 7]) [0]).2).finalFile =
      some (((List.range (planChunks
          (get_file_size (ProbeResponse.response 200 (some (some 5)))) CHUNK_SIZE).length).map
        (fun _ => [7, 7, 7, 7, 7])).flatten) :=
  reassembly_in_index_order (ProbeResponse.response 200 (some (some 5)))
    (fun _ _ => HttpAttempt.response 206 [7, 7, 7, 7, 7]) (fun _ => [7, 7, 7, 7, 7]) [0]
    (by decide)
    (by
      intro idx s e h
      rw [show get_file_size (ProbeResponse.response 200 (some (some 5))) = 5 from rfl,
        planChunks_total_five] at h
      match idx with
      | 0 =>
        simp only [List.getElem?_cons_zero, Option.some.injEq, Prod.mk.injEq] at h
        obtain ⟨hs, he⟩ := h
        subst hs
        exact download_chunk_first _ _ _ _ _ _ rfl
      | n + 1 => simp at h)
    (by
      rw [show get_file_size (ProbeResponse.response 200 (some (some 5))) = 5 from rfl,
        planChunks_total_five]
      exact List.Perm.refl _)

theorem first_terminal_failure_fails_job_witness :
    (download (ProbeResponse.response 200 (some (some 5)))
      (fun _ _ => HttpAttempt.transportError) ([] ++ 0 :: [1])).1 = .error (.chunkFailed 0 4)
    ∧ download (ProbeResponse.response 200 (some (some 5)))
        (fun _ _ => HttpAttempt.transportError) ([] ++ 0 :: [1])
      = download (ProbeResponse.response 200 (some (some 5)))
        (fun _ _ => HttpAttempt.transportError) ([] ++ 0 :: [2, 3]) :=
  first_terminal_failure_fails_job (ProbeResponse.response 200 (some (some 5)))
    (fun _ _ => HttpAttempt.transportError) [] [1] [2, 3] 0 0 4
    (by decide)
    (by intro j hj; cases hj)
    (by
      rw [show get_file_size (ProbeResponse.response 200 (some (some 5))) = 5 from rfl,
        planChunks_total_five]
      decide)
    (download_chunk_exhaust (fun _ => HttpAttempt.transportError) RETRIES 0 4 (RETRIES + 1) 0
      (by decide) (by decide) (fun k _ _ => rfl))

theorem progress_counter_bounds_witness :
    (fetchLoop (fun _ _ => HttpAttempt.response 206 [1, 2, 3, 4, 5]) (planChunks 5 CHUNK_SIZE)
      [0] ⟨fun _ => none, true, none⟩ 0).2.1 ≤ 5 :=
  (progress_counter_bounds (fun _ _ => HttpAttempt.response 206 [1, 2, 3, 4, 5]) 5 [0]
    (by decide) (by decide)
    (by
      intro idx hidx
      rw [List.mem_singleton] at hidx
      subst hidx
      rw [planChunks_total_five]
      decide)
    (by
      intro idx hidx
      rw [List.mem_singleton] at hidx
      subst hidx
      rw [planChunks_total_five]
      have hdc : download_chunk ((fun (_ _ : Nat) => HttpAttempt.response 206 [1, 2, 3, 4, 5]) 0)
          RETRIES 0 4 0 = .ok (0, [1, 2, 3, 4, 5]) :=
        download_chunk_first _ _ _ _ _ _ rfl
      have hok : okLength (fun _ _ => HttpAttempt.response 206 [1, 2, 3, 4, 5]) [(0, 4)] 0 = 5 := by
        unfold okLength
        simp only [List.getElem?_cons_zero, hdc]
        rfl
      rw [hok]
      decide)).2.2 ⟨fun _ => none, true, none⟩

theorem no_output_on_failure_witness :
    ((download (ProbeResponse.response 200 (some (some 5)))
      (fun _ _ => HttpAttempt.transportError) [0]).2).finalFile = none := by
  have hfail : download_chunk ((fun (_ _ : Nat) => HttpAttempt.transportError) 0) RETRIES 0 4 0
      = .error (0, 4) :=
    download_chunk_exhaust _ RETRIES 0 4 (RETRIES + 1) 0 (by decide) (by decide)
      (fun k _ _ => rfl)
  have hplan : planChunks (get_file_size (ProbeResponse.response 200 (some (some 5)))) CHUNK_SIZE
      = [(0, 4)] := planChunks_total_five
  have hF : fetchLoop (fun _ _ => HttpAttempt.transportError)
      (planChunks (get_file_size (ProbeResponse.response 200 (some (some 5)))) CHUNK_SIZE) [0]
      ⟨fun _ => none, true, none⟩ 0
      = (⟨fun _ => none, true, none⟩, 0, some (0, 4)) := by
    rw [hplan, fetchLoop_cons_err (fun _ _ => HttpAttempt.transportError) [(0, 4)] 0 []
      ⟨fun _ => none, true, none⟩ 0 0 4 (0, 4) rfl hfail]
  have herr : (download (ProbeResponse.response 200 (some (some 5)))
      (fun _ _ => HttpAttempt.transportError) [0]).1 = .error (.chunkFailed 0 4) := by
    rw [download_fetch_err (ProbeResponse.response 200 (some (some 5)))
      (fun _ _ => HttpAttempt.transportError) [0] ⟨fun _ => none, true, none⟩ 0 0 4
      (by decide) hF]
  exact no_output_on_failure (ProbeResponse.response 200 (some (some 5)))
    (fun _ _ => HttpAttempt.transportError) [0] (.chunkFailed 0 4)
    (by rw [hplan]; exact List.Perm.refl _) herr

theorem success_cleans_intermediates_witness :
    ((download (ProbeResponse.response 200 (some (some 5)))
      (fun _ _ => HttpAttempt.response 206 [1, 2, 3, 4, 5]) [0]).2).chunks 0 = none
    ∧ ((download (ProbeResponse.response 200 (some (some 5)))
      (fun _ _ => HttpAttempt.response 206 [1, 2, 3, 4, 5]) [0]).2).tempDirExists = false
    ∧ (((download (ProbeResponse.response 200 (some (some 5)))
      (fun _ _ => HttpAttempt.response 206 [1, 2, 3, 4, 5]) [0]).2).finalFile).isSome = true := by
  have hdc : download_chunk ((fun (_ _ : Nat) => HttpAttempt.response 206 [1, 2, 3, 4, 5]) 0)
      RETRIES 0 4 0 = .ok (0, [1, 2, 3, 4, 5]) :=
    download_chunk_first _ _ _ _ _ _ rfl
  have hplan : planChunks (get_file_size (ProbeResponse.response 200 (some (some 5)))) CHUNK_SIZE
      = [(0, 4)] := planChunks_total_five
  have hF : fetchLoop (fun _ _ => HttpAttempt.response 206 [1, 2, 3, 4, 5])
      (planChunks (get_file_size (ProbeResponse.response 200 (some (some 5)))) CHUNK_SIZE) [0]
      ⟨fun _ => none, true, none⟩ 0
      = (⟨fun j => if j = 0 then some [1, 2, 3, 4, 5] else none, true, none⟩, 0 + 5, none) := by
    rw [hplan, fetchLoop_cons_ok (fun _ _ => HttpAttempt.response 206 [1, 2, 3, 4, 5])
      [(0, 4)] 0 [] ⟨fun _ => none, true, none⟩ 0 0 4 0 [1, 2, 3, 4, 5] rfl hdc,
      fetchLoop_nil]
    rfl
  have hflag : (mergeChunks
      (⟨fun j => if j = 0 then some [1, 2, 3, 4, 5] else none, true, none⟩ : FS)
      (planChunks (get_file_size (ProbeResponse.response 200 (some (some 5))))
        CHUNK_SIZE).length).2 = true := by
    rw [hplan]
    rfl
  have hM : mergeChunks
      (⟨fun j => if j = 0 then some [1, 2, 3, 4, 5] else none, true, none⟩ : FS)
      (planChunks (get_file_size (ProbeResponse.response 200 (some (some 5))))
        CHUNK_SIZE).length
      = ((mergeChunks
          (⟨fun j => if j = 0 then some [1, 2, 3, 4, 5] else none, true, none⟩ : FS)
          (planChunks (get_file_size (ProbeResponse.response 200 (some (some 5))))
            CHUNK_SIZE).length).1, true) :=
    Prod.ext rfl hflag
  have hok : (download (ProbeResponse.response 200 (some (some 5)))
      (fun _ _ => HttpAttempt.response 206 [1, 2, 3, 4, 5]) [0]).1 = .ok () := by
    rw [download_merge_flag (ProbeResponse.response 200 (some (some 5)))
      (fun _ _ => HttpAttempt.response 206 [1, 2, 3, 4, 5]) [0]
      (⟨fun j => if j = 0 then some [1, 2, 3, 4, 5] else none, true, none⟩ : FS)
      ((mergeChunks
        (⟨fun j => if j = 0 then some [1, 2, 3, 4, 5] else none, true, none⟩ : FS)
        (planChunks (get_file_size (ProbeResponse.response 200 (some (some 5))))
          CHUNK_SIZE).length).1)
      (0 + 5) true (by decide) hF hM]
    rfl
  obtain ⟨c1, c2, c3⟩ := success_cleans_intermediates (ProbeResponse.response 200 (some (some 5)))
    (fun _ _ => HttpAttempt.response 206 [1, 2, 3, 4, 5]) [0] hok
  exact ⟨c1 0, c2, c3⟩
